import Mathlib

/-!
Verification of the Salesforce-RAG repository (two Python sources:
`add_embeddings_to_snowflake.py` and `ask_snowflake_rag.py`).

Text is modelled as `List Char` (`Str`).  The external Snowflake collaborators
(embedding service, vector similarity, completion service) are modelled as
opaque parameters or free constructions; all local logic (paragraph chunking,
idempotent ingestion bookkeeping, transactional commit/rollback structure,
retrieval shaping, prompt assembly, directory reading) is translated from the
source files.
-/

/-- Text: a Python `str`, modelled as a list of characters. -/
abbrev Str := List Char

/-- The characters Python treats as whitespace: `str.isspace()`, which is also
the set matched by `\s` in a unicode regex and stripped by `str.strip()`. -/
def pySpaceChars : Str :=
  [' ', '\t', '\n', '\x0b', '\x0c', '\r', '\x1c', '\x1d', '\x1e', '\x1f',
   '\x85', '\xa0',
   '\u1680', '\u2000', '\u2001', '\u2002', '\u2003', '\u2004', '\u2005', '\u2006', '\u2007', '\u2008', '\u2009', '\u200a', '\u2028', '\u2029', '\u202f', '\u205f', '\u3000']

/-- `isSpace c` iff Python's `c.isspace()` (equivalently, regex `\s` matches). -/
def isSpace (c : Char) : Bool := pySpaceChars.contains c

/-- Python `s.strip()`: drop leading and trailing whitespace. -/
def pyStrip (s : Str) : Str :=
  ((s.dropWhile isSpace).reverse.dropWhile isSpace).reverse

/-- Helper for the separator regex `\n\s*\n+` of `chunk_document_by_paragraphs`:
try to consume non-newline whitespace followed by one `'\n'`; `some rest` on
success.  `nlSkip cs` succeeds exactly when a `'\n'` is reachable from the
start of `cs` through whitespace. -/
def nlSkip : Str → Option Str
  | [] => none
  | c :: cs => if c = '\n' then some cs else if isSpace c then nlSkip cs else none

/-- The split of `re.split(r"\n\s*\n+", text)` (no capture groups, so the
matched separators are dropped and the pieces are returned in order).

A separator match starts at a `'\n'` from which a second `'\n'` is reachable
through whitespace (`\n` then `\s*\n`), and greedily extends through the last
`'\n'` reachable through whitespace (`\s*\n+` with greedy backtracking).

The scan is one character at a time; the `Bool` mode records whether we are
inside a separator match.  In separator mode a character is consumed as part
of the match exactly while a further `'\n'` is still reachable through
whitespace, which consumes the match through its last `'\n'`. -/
def splitGo : Bool → Str → Str → List Str
  | false, acc, [] => [acc.reverse]
  | false, acc, c :: cs =>
      if c = '\n' && (nlSkip cs).isSome then acc.reverse :: splitGo true [] cs
      else splitGo false (c :: acc) cs
  | true, acc, [] => [acc.reverse]
  | true, acc, c :: cs =>
      if (nlSkip (c :: cs)).isSome then splitGo true acc cs
      else splitGo false (c :: acc) cs

/-- `chunk_document_by_paragraphs` (add_embeddings_to_snowflake.py, lines
100-103): split on blank lines via `re.split(r"\n\s*\n+", text)`, then keep
the stripped pieces that are non-empty:
`[p.strip() for p in paragraphs if p.strip()]`. -/
def chunk_document_by_paragraphs (text : Str) : List Str :=
  ((splitGo false [] text).map pyStrip).filter (fun p => !p.isEmpty)

example : chunk_document_by_paragraphs "a\n\nb".data = ["a".data, "b".data] := by decide
example : chunk_document_by_paragraphs "a \n\t\n  b".data = ["a".data, "b".data] := by decide
example : chunk_document_by_paragraphs "a\nb".data = ["a\nb".data] := by decide
example : chunk_document_by_paragraphs " \n \n ".data = [] := by decide
example : chunk_document_by_paragraphs "".data = [] := by decide
example : chunk_document_by_paragraphs "\n\na\r\n\r\nb\n\n".data
    = ["a".data, "b".data] := by decide

/-! ## Specification-side paragraph splitter (for the refinement claim C2) -/

/-- Maximal whitespace prefix of a string and the remainder. -/
def wsTake : Str → Str × Str
  | [] => ([], [])
  | c :: cs =>
    if isSpace c then ((wsTake cs).1.cons c, (wsTake cs).2) else ([], c :: cs)

theorem wsTake_snd_length : ∀ cs : Str, (wsTake cs).2.length ≤ cs.length := by
  intro cs
  induction cs with
  | nil => simp [wsTake]
  | cons c cs ih =>
    by_cases h : isSpace c = true <;> simp [wsTake, h] <;> omega

/-- Modelled from the spec's words (section 4.1 / claim C2): split the text on
each (maximal) run of whitespace containing at least two newline characters;
`acc` is the reversed current piece. -/
def specSplitAux (acc : Str) : Str → List Str
  | [] => [acc.reverse]
  | c :: cs =>
    if h : isSpace c = true then
      if 2 ≤ (wsTake (c :: cs)).1.count '\n' then
        acc.reverse :: specSplitAux [] (wsTake (c :: cs)).2
      else
        specSplitAux ((wsTake (c :: cs)).1.reverse ++ acc) (wsTake (c :: cs)).2
    else specSplitAux (c :: acc) cs
termination_by cs => cs.length
decreasing_by
  all_goals simp [wsTake, h]
  all_goals exact Nat.lt_succ_of_le (wsTake_snd_length cs)

/-- Modelled from the spec's words: the non-empty trimmed pieces obtained by
splitting on each whitespace run with at least two newlines, in order. -/
def paragraphsSpec (text : Str) : List Str :=
  ((specSplitAux [] text).map pyStrip).filter (fun p => !p.isEmpty)

/-- A blank-line separator (a match of `\n\s*\n+`) occurs somewhere in the
text: some `'\n'` is followed, through whitespace, by another `'\n'`. -/
def hasBlankRun : Str → Bool
  | [] => false
  | c :: cs => (c = '\n' && (nlSkip cs).isSome) || hasBlankRun cs

/-! ## Reading the documents directory (`read_documents`) -/

/-- `fnmatch`-style pattern matching as used by `Path.glob` (restricted to the
wildcard `'*'` and literal characters, which covers the pattern `"*.txt"` the
source uses): `'*'` matches any sequence of characters. -/
def globMatch : Str → Str → Bool
  | [], s => s.isEmpty
  | p :: ps, s =>
    if p = '*' then s.tails.any (fun t => globMatch ps t)
    else
      match s with
      | [] => false
      | c :: cs => p = c && globMatch ps cs

/-- `read_documents` (add_embeddings_to_snowflake.py, lines 78-97) over a
directory listing of `(filename, raw content)` pairs, in directory order: for
each file matching `glob("*.txt")`, read and strip the content, and keep the
pair when the stripped content is non-empty. -/
def read_documents (listing : List (Str × Str)) : List (Str × Str) :=
  (listing.filter (fun e => globMatch "*.txt".data e.1)).filterMap
    (fun e =>
      if (pyStrip e.2).isEmpty then none else some (e.1, pyStrip e.2))

example : read_documents [("a.txt".data, " hi \n".data), ("b.md".data, "x".data),
    ("c.txt".data, "  \n ".data)] = [("a.txt".data, "hi".data)] := by decide

/-! ## The store and the ingestion pipeline (`insert_embeddings`) -/

/-- An embedding returned by the external service
`SNOWFLAKE.CORTEX.EMBED_TEXT_768(model, text)`, modelled freely by the pair of
its inputs (the service is an opaque deterministic collaborator). -/
structure Embedding where
  model : Str
  text : Str
deriving DecidableEq

/-- A row of the `document_embeddings` table. -/
structure Row where
  id : Str
  filename : Str
  chunk_id : Nat
  document_text : Str
  embedding : Embedding
deriving DecidableEq

/-- The persisted state: the `doc_contents` table (file_name, content) and the
`document_embeddings` table, each as a list of rows in insertion order. -/
structure Store where
  doc_contents : List (Str × Str)
  document_embeddings : List Row
deriving DecidableEq

/-- `SELECT 1 FROM doc_contents WHERE file_name = %s LIMIT 1` followed by
`fetchone()` being truthy: a document with this filename exists. -/
def existsDoc (st : Store) (fn : Str) : Bool :=
  st.doc_contents.any (fun p => p.1 = fn)

/-- `row_id = f"{filename}_chunk_{chunk_id}"`. -/
def rowId (fn : Str) (i : Nat) : Str := fn ++ "_chunk_".data ++ (Nat.repr i).data

/-- One chunk row as inserted by the chunk-insert statement: the embedding is
requested from the external service on `(embed_model, chunk_text)`. -/
def mkRow (model fn : Str) (i : Nat) (chunk : Str) : Row :=
  ⟨rowId fn i, fn, i, chunk, ⟨model, chunk⟩⟩

/-- The rows produced by `for chunk_id, chunk_text in enumerate(chunks, start=1)`. -/
def chunkRows (model fn : Str) : Nat → List Str → List Row
  | _, [] => []
  | i, c :: cs => mkRow model fn i c :: chunkRows model fn (i + 1) cs

/-- The running state of `insert_embeddings`: the store plus the three
reported counters. -/
structure IngestState where
  store : Store
  inserted_docs : Nat
  skipped_docs : Nat
  total_chunks : Nat
deriving DecidableEq

/-- One iteration of the `for filename, text in documents` loop of
`insert_embeddings` (lines 184-217): skip if the filename already exists,
otherwise insert the document record and one row per paragraph chunk. -/
def ingestStep (model : Str) (s : IngestState) (d : Str × Str) : IngestState :=
  if existsDoc s.store d.1 then
    { s with skipped_docs := s.skipped_docs + 1 }
  else
    { store :=
        { doc_contents := s.store.doc_contents ++ [(d.1, d.2)],
          document_embeddings :=
            s.store.document_embeddings
              ++ chunkRows model d.1 1 (chunk_document_by_paragraphs d.2) },
      inserted_docs := s.inserted_docs + 1,
      skipped_docs := s.skipped_docs,
      total_chunks := s.total_chunks + (chunk_document_by_paragraphs d.2).length }

/-- `insert_embeddings` (lines 161-231) in the failure-free case: process all
`(filename, text)` pairs in order, then commit. -/
def insert_embeddings (model : Str) (st : Store) (docs : List (Str × Str)) :
    IngestState :=
  docs.foldl (ingestStep model) ⟨st, 0, 0, 0⟩

example :
    (insert_embeddings [] ⟨[], []⟩ [("a.txt".data, "P one.\n\nP two.".data)]).store
      = ⟨[("a.txt".data, "P one.\n\nP two.".data)],
         [⟨"a.txt_chunk_1".data, "a.txt".data, 1, "P one.".data, ⟨[], "P one.".data⟩⟩,
          ⟨"a.txt_chunk_2".data, "a.txt".data, 2, "P two.".data, ⟨[], "P two.".data⟩⟩]⟩ := by
  decide

/-! ## Ingestion lemmas -/

theorem existsDoc_ingestStep_mono (model : Str) (s : IngestState) (d : Str × Str)
    (fn : Str) (h : existsDoc s.store fn = true) :
    existsDoc (ingestStep model s d).store fn = true := by
  unfold ingestStep
  split
  · exact h
  · simp only [existsDoc, List.any_append] at h ⊢
    simp [h]

theorem existsDoc_ingestStep_self (model : Str) (s : IngestState) (fn t : Str) :
    existsDoc (ingestStep model s (fn, t)).store fn = true := by
  unfold ingestStep
  split
  next h => exact h
  next h => simp [existsDoc, List.any_append]

theorem existsDoc_foldl_mono (model : Str) (fn : Str) :
    ∀ (docs : List (Str × Str)) (s : IngestState), existsDoc s.store fn = true →
      existsDoc (docs.foldl (ingestStep model) s).store fn = true := by
  intro docs
  induction docs with
  | nil => intro s h; exact h
  | cons d docs ih =>
    intro s h
    exact ih (ingestStep model s d) (existsDoc_ingestStep_mono model s d fn h)

theorem existsDoc_foldl_of_mem (model : Str) :
    ∀ (docs : List (Str × Str)) (s : IngestState) (d : Str × Str), d ∈ docs →
      existsDoc (docs.foldl (ingestStep model) s).store d.1 = true := by
  intro docs
  induction docs with
  | nil => intro s d h; cases h
  | cons d' docs ih =>
    intro s d h
    rcases List.mem_cons.mp h with h | h
    · subst h
      exact existsDoc_foldl_mono model d.1 docs (ingestStep model s d)
        (existsDoc_ingestStep_self model s d.1 d.2)
    · exact ih (ingestStep model s d') d h

theorem foldl_all_skipped (model : Str) :
    ∀ (docs : List (Str × Str)) (s : IngestState),
      (∀ d ∈ docs, existsDoc s.store d.1 = true) →
      docs.foldl (ingestStep model) s
        = { s with skipped_docs := s.skipped_docs + docs.length } := by
  intro docs
  induction docs with
  | nil => intro s _; simp
  | cons d docs ih =>
    intro s h
    have hd : existsDoc s.store d.1 = true := h d (List.mem_cons_self d docs)
    have hstep : ingestStep model s d = { s with skipped_docs := s.skipped_docs + 1 } := by
      unfold ingestStep
      simp [hd]
    rw [List.foldl_cons, hstep,
      ih { s with skipped_docs := s.skipped_docs + 1 }
        (by intro d' hd'; exact h d' (List.mem_cons_of_mem d hd'))]
    simp [Nat.add_assoc, Nat.add_comm 1 docs.length]

/-- C1: skipping an already-present filename changes nothing but the skip
counter. -/
theorem ingestStep_skip (model : Str) (s : IngestState) (fn t : Str)
    (h : existsDoc s.store fn = true) :
    ingestStep model s (fn, t) = { s with skipped_docs := s.skipped_docs + 1 } := by
  unfold ingestStep
  simp [h]

/-- C1: re-running on any document set after a first run inserts nothing. -/
theorem insert_embeddings_rerun (model : Str) (st : Store) (docs : List (Str × Str)) :
    insert_embeddings model (insert_embeddings model st docs).store docs
      = ⟨(insert_embeddings model st docs).store, 0, docs.length, 0⟩ := by
  unfold insert_embeddings
  rw [foldl_all_skipped model docs ⟨(docs.foldl (ingestStep model) ⟨st, 0, 0, 0⟩).store, 0, 0, 0⟩
    (by
      intro d hd
      exact existsDoc_foldl_of_mem model docs ⟨st, 0, 0, 0⟩ d hd)]
  simp

/-- C1: ingestion is idempotent per filename.  (1) Processing a pair whose
filename is already stored inserts no Document and no Chunk row (the state is
unchanged apart from the skip counter going up by one).  (2) Re-running
ingestion on an unchanged document set leaves the store unchanged and reports
zero inserted documents, every document skipped, and zero chunks inserted. -/
theorem c1_ingest_idempotent :
    (∀ (model : Str) (s : IngestState) (fn t : Str),
      existsDoc s.store fn = true →
        ingestStep model s (fn, t) = { s with skipped_docs := s.skipped_docs + 1 })
    ∧ (∀ (model : Str) (st : Store) (docs : List (Str × Str)),
        insert_embeddings model (insert_embeddings model st docs).store docs
          = ⟨(insert_embeddings model st docs).store, 0, docs.length, 0⟩) :=
  ⟨ingestStep_skip, insert_embeddings_rerun⟩

theorem c1_ingest_idempotent_witness :
    (existsDoc ⟨[("a.txt".data, "x".data)], []⟩ "a.txt".data = true)
    ∧ ingestStep "m".data ⟨⟨[("a.txt".data, "x".data)], []⟩, 0, 0, 0⟩
        ("a.txt".data, "y".data)
      = { (⟨⟨[("a.txt".data, "x".data)], []⟩, 0, 0, 0⟩ : IngestState) with
          skipped_docs := 0 + 1 } :=
  ⟨by decide,
   c1_ingest_idempotent.1 "m".data ⟨⟨[("a.txt".data, "x".data)], []⟩, 0, 0, 0⟩
     "a.txt".data "y".data (by decide)⟩

/-! ## Chunk-row lemmas (C4) and document-content lemmas (C9) -/

theorem chunkRows_map_chunk_id (model fn : Str) :
    ∀ (cs : List Str) (i : Nat),
      (chunkRows model fn i cs).map (fun r => r.chunk_id) = List.range' i cs.length := by
  intro cs
  induction cs with
  | nil => intro i; simp [chunkRows]
  | cons c cs ih => intro i; simp [chunkRows, mkRow, List.range', ih (i + 1)]

theorem chunkRows_map_text (model fn : Str) :
    ∀ (cs : List Str) (i : Nat),
      (chunkRows model fn i cs).map (fun r => r.document_text) = cs := by
  intro cs
  induction cs with
  | nil => intro i; simp [chunkRows]
  | cons c cs ih => intro i; simp [chunkRows, mkRow, ih (i + 1)]

theorem chunkRows_filter_filename (model fn : Str) :
    ∀ (cs : List Str) (i : Nat),
      (chunkRows model fn i cs).filter (fun r => r.filename = fn)
        = chunkRows model fn i cs := by
  intro cs
  induction cs with
  | nil => intro i; simp [chunkRows]
  | cons c cs ih => intro i; simp [chunkRows, mkRow, List.filter, ih (i + 1)]

/-- C4: when a document is accepted (its filename not yet stored, and the
embeddings table holds no rows for it), the rows persisted for its filename
carry exactly the chunk indices `1..N` where `N` is the number of chunks, and
in index order their texts are exactly the chunker's paragraphs. -/
theorem c4_chunk_indices_contiguous (model : Str) (s : IngestState) (fn t : Str)
    (hnew : existsDoc s.store fn = false)
    (hrows : s.store.document_embeddings.filter (fun r => r.filename = fn) = []) :
    (((ingestStep model s (fn, t)).store.document_embeddings.filter
        (fun r => r.filename = fn)).map (fun r => r.chunk_id)
      = List.range' 1 (chunk_document_by_paragraphs t).length)
    ∧ (((ingestStep model s (fn, t)).store.document_embeddings.filter
        (fun r => r.filename = fn)).map (fun r => r.document_text)
      = chunk_document_by_paragraphs t) := by
  unfold ingestStep
  rw [if_neg (by simp [hnew])]
  simp only [List.filter_append, hrows, List.nil_append,
    chunkRows_filter_filename]
  exact ⟨chunkRows_map_chunk_id model fn _ 1, chunkRows_map_text model fn _ 1⟩

theorem c4_chunk_indices_contiguous_witness :
    (existsDoc ⟨[], []⟩ "a.txt".data = false)
    ∧ ((⟨[], []⟩ : Store).document_embeddings.filter
        (fun r => r.filename = "a.txt".data) = [])
    ∧ ((((ingestStep "m".data ⟨⟨[], []⟩, 0, 0, 0⟩
          ("a.txt".data, "P one.\n\nP two.".data)).store.document_embeddings.filter
            (fun r => r.filename = "a.txt".data)).map (fun r => r.chunk_id)
        = List.range' 1 (chunk_document_by_paragraphs "P one.\n\nP two.".data).length)
      ∧ ((((ingestStep "m".data ⟨⟨[], []⟩, 0, 0, 0⟩
          ("a.txt".data, "P one.\n\nP two.".data)).store.document_embeddings.filter
            (fun r => r.filename = "a.txt".data)).map (fun r => r.document_text))
        = chunk_document_by_paragraphs "P one.\n\nP two.".data)) :=
  ⟨by decide, by decide,
   c4_chunk_indices_contiguous "m".data ⟨⟨[], []⟩, 0, 0, 0⟩ "a.txt".data
     "P one.\n\nP two.".data (by decide) (by decide)⟩

/-- C9 as written is false: `read_documents` strips the raw file content
before ingestion, so the persisted Document text for a file whose raw content
is `"hello\n"` is `"hello"`, not the raw text read from disk. -/
theorem c9_counterexample :
    (insert_embeddings "m".data ⟨[], []⟩
        (read_documents [("a.txt".data, "hello\n".data)])).store.doc_contents
      = [("a.txt".data, "hello".data)]
    ∧ "hello".data ≠ "hello\n".data := by
  decide

/-- C9 (amended): the Document record holds the text exactly as received by
`insert_embeddings`, and what `read_documents` passes on is the raw file
content with leading and trailing whitespace stripped; so the persisted text
is the stripped raw text (equal to the raw text only when that has no
leading/trailing whitespace). -/
theorem c9_document_text_stripped :
    (∀ (model : Str) (s : IngestState) (fn t : Str),
      existsDoc s.store fn = false →
        (ingestStep model s (fn, t)).store.doc_contents
          = s.store.doc_contents ++ [(fn, t)])
    ∧ (∀ (listing : List (Str × Str)) (fn content : Str),
        (fn, content) ∈ read_documents listing →
          ∃ raw, (fn, raw) ∈ listing ∧ content = pyStrip raw) := by
  constructor
  · intro model s fn t h
    unfold ingestStep
    rw [if_neg (by simp [h])]
  · intro listing fn content h
    unfold read_documents at h
    rcases List.mem_filterMap.mp h with ⟨e, he, hsome⟩
    rcases List.mem_filter.mp he with ⟨hmem, _⟩
    by_cases hempty : (pyStrip e.2).isEmpty
    · simp [hempty] at hsome
    · rw [if_neg hempty] at hsome
      cases hsome
      exact ⟨e.2, by simpa using hmem, rfl⟩

theorem c9_document_text_stripped_witness :
    ((ingestStep "m".data ⟨⟨[], []⟩, 0, 0, 0⟩ ("a.txt".data, "hi".data)).store.doc_contents
        = [] ++ [("a.txt".data, "hi".data)])
    ∧ ∃ raw, ("a.txt".data, raw) ∈ [("a.txt".data, " hi \n".data)]
        ∧ "hi".data = pyStrip raw :=
  ⟨c9_document_text_stripped.1 "m".data ⟨⟨[], []⟩, 0, 0, 0⟩ "a.txt".data "hi".data
     (by decide),
   c9_document_text_stripped.2 [("a.txt".data, " hi \n".data)] "a.txt".data "hi".data
     (by decide)⟩

/-! ## Transactional run of `insert_embeddings` with failure injection (C5) -/

/-- The persistence operations `insert_embeddings` issues on the connection:
the four kinds of `cursor.execute` plus `conn.commit()` and
`conn.rollback()`. -/
inductive DbOp
  | selectDoc (fn : Str)
  | insertDoc (fn text : Str)
  | insertChunk (r : Row)
  | commitTx
  | rollbackTx
deriving DecidableEq

/-- Effect of one operation on the in-transaction view of the store. -/
def applyDb (st : Store) : DbOp → Store
  | .selectDoc _ => st
  | .insertDoc fn t => { st with doc_contents := st.doc_contents ++ [(fn, t)] }
  | .insertChunk r =>
      { st with document_embeddings := st.document_embeddings ++ [r] }
  | .commitTx => st
  | .rollbackTx => st

/-- Transactional semantics of an operation sequence on a pair
`(committed, current)`: writes act on the current view, `commitTx` publishes
the current view, `rollbackTx` discards it. -/
def applyTx : Store × Store → DbOp → Store × Store
  | (com, cur), DbOp.selectDoc fn => (com, applyDb cur (DbOp.selectDoc fn))
  | (com, cur), DbOp.insertDoc fn t => (com, applyDb cur (DbOp.insertDoc fn t))
  | (com, cur), DbOp.insertChunk r => (com, applyDb cur (DbOp.insertChunk r))
  | (_, cur), DbOp.commitTx => (cur, cur)
  | (com, _), DbOp.rollbackTx => (com, com)

/-- The committed store after running a trace from a committed store `st` with
a fresh transaction. -/
def commitView (st : Store) (tr : List DbOp) : Store :=
  (tr.foldl applyTx (st, st)).1

/-- A connection mid-run: the current in-transaction view, the operations
performed so far, and the index of the next fallible operation. -/
structure TxState where
  cur : Store
  trace : List DbOp
  opIdx : Nat
deriving DecidableEq

/-- Perform one fallible operation (a `cursor.execute` or `conn.commit`): if
the failure oracle picks this operation's index, it raises (taking no effect
and not entering the trace) and the trace so far is the error payload. -/
def tryOp (failAt : Option Nat) (ts : TxState) (op : DbOp) :
    Except (List DbOp) TxState :=
  if failAt = some ts.opIdx then .error ts.trace
  else .ok ⟨applyDb ts.cur op, ts.trace ++ [op], ts.opIdx + 1⟩

/-- The inner `for chunk_id, chunk_text in enumerate(chunks, start=1)` loop:
one fallible chunk-insert per chunk. -/
def runChunks (failAt : Option Nat) (model fn : Str) :
    Nat → List Str → TxState → Except (List DbOp) TxState
  | _, [], ts => .ok ts
  | i, c :: cs, ts =>
    match tryOp failAt ts (.insertChunk (mkRow model fn i c)) with
    | .error tr => .error tr
    | .ok ts1 => runChunks failAt model fn (i + 1) cs ts1

/-- The `for filename, text in documents` loop of `insert_embeddings` with
fallible persistence operations, threading the counter triple
`(inserted_docs, skipped_docs, total_chunks)`. -/
def runDocs (failAt : Option Nat) (model : Str) :
    List (Str × Str) → TxState → Nat × Nat × Nat →
      Except (List DbOp) (TxState × Nat × Nat × Nat)
  | [], ts, counts => .ok (ts, counts)
  | (fn, t) :: rest, ts, counts =>
    match tryOp failAt ts (.selectDoc fn) with
    | .error tr => .error tr
    | .ok ts1 =>
      if existsDoc ts1.cur fn then
        runDocs failAt model rest ts1 (counts.1, counts.2.1 + 1, counts.2.2)
      else
        match tryOp failAt ts1 (.insertDoc fn t) with
        | .error tr => .error tr
        | .ok ts2 =>
          match runChunks failAt model fn 1 (chunk_document_by_paragraphs t) ts2 with
          | .error tr => .error tr
          | .ok ts3 =>
            runDocs failAt model rest ts3
              (counts.1 + 1, counts.2.1,
               counts.2.2 + (chunk_document_by_paragraphs t).length)

/-- `insert_embeddings` (lines 183-231) with failure injection: run the loop,
then `conn.commit()`, all inside `try`; on any raised persistence error run
`conn.rollback()` and re-raise.  Returns the operation trace and either the
reported counters or the propagated error. -/
def insert_embeddingsT (failAt : Option Nat) (model : Str) (st : Store)
    (docs : List (Str × Str)) : List DbOp × Except Unit (Nat × Nat × Nat) :=
  match runDocs failAt model docs ⟨st, [], 0⟩ (0, 0, 0) with
  | .ok (ts, counts) =>
    match tryOp failAt ts .commitTx with
    | .ok ts2 => (ts2.trace, .ok counts)
    | .error tr => (tr ++ [.rollbackTx], .error ())
  | .error tr => (tr ++ [.rollbackTx], .error ())

/-- An operation that is neither a commit nor a rollback. -/
def isPlainOp (op : DbOp) : Prop := op ≠ DbOp.commitTx ∧ op ≠ DbOp.rollbackTx

theorem applyTx_plain (com cur : Store) (op : DbOp) (h : isPlainOp op) :
    applyTx (com, cur) op = (com, applyDb cur op) := by
  cases op with
  | selectDoc fn => rfl
  | insertDoc fn t => rfl
  | insertChunk r => rfl
  | commitTx => exact absurd rfl h.1
  | rollbackTx => exact absurd rfl h.2

theorem foldl_applyTx_plain :
    ∀ (tr : List DbOp) (com cur : Store), (∀ op ∈ tr, isPlainOp op) →
      tr.foldl applyTx (com, cur) = (com, tr.foldl applyDb cur) := by
  intro tr
  induction tr with
  | nil => intro com cur _; rfl
  | cons op tr ih =>
    intro com cur h
    rw [List.foldl_cons, applyTx_plain com cur op (h op (List.mem_cons_self op tr)),
      List.foldl_cons]
    exact ih com (applyDb cur op) (fun o ho => h o (List.mem_cons_of_mem op ho))

theorem tryOp_error_eq {failAt : Option Nat} {ts : TxState} {op : DbOp}
    {tr : List DbOp} (h : tryOp failAt ts op = .error tr) : tr = ts.trace := by
  unfold tryOp at h
  split at h
  · cases h; rfl
  · cases h

theorem tryOp_ok_eq {failAt : Option Nat} {ts : TxState} {op : DbOp}
    {ts' : TxState} (h : tryOp failAt ts op = .ok ts') :
    ts' = ⟨applyDb ts.cur op, ts.trace ++ [op], ts.opIdx + 1⟩ := by
  unfold tryOp at h
  split at h
  · cases h
  · cases h; rfl

theorem plain_append_one {tr : List DbOp} {op : DbOp}
    (h : ∀ o ∈ tr, isPlainOp o) (hop : isPlainOp op) :
    ∀ o ∈ tr ++ [op], isPlainOp o := by
  intro o ho
  rcases List.mem_append.mp ho with ho | ho
  · exact h o ho
  · simp at ho; subst ho; exact hop

theorem runChunks_ok (failAt : Option Nat) (model fn : Str) :
    ∀ (cs : List Str) (i : Nat) (ts ts' : TxState),
      runChunks failAt model fn i cs ts = .ok ts' →
      (ts'.cur = { doc_contents := ts.cur.doc_contents,
                   document_embeddings :=
                     ts.cur.document_embeddings ++ chunkRows model fn i cs })
      ∧ (∀ st : Store, ts.cur = ts.trace.foldl applyDb st →
          ts'.cur = ts'.trace.foldl applyDb st)
      ∧ ((∀ op ∈ ts.trace, isPlainOp op) → (∀ op ∈ ts'.trace, isPlainOp op)) := by
  intro cs
  induction cs with
  | nil =>
    intro i ts ts' h
    cases h
    exact ⟨by simp [chunkRows], fun st hst => hst, fun hp => hp⟩
  | cons c cs ih =>
    intro i ts ts' h
    unfold runChunks at h
    cases htry : tryOp failAt ts (.insertChunk (mkRow model fn i c)) with
    | error tr => rw [htry] at h; cases h
    | ok ts1 =>
      rw [htry] at h
      have h1 := tryOp_ok_eq htry
      rcases ih (i + 1) ts1 ts' h with ⟨hcur, hinv, hplain⟩
      subst h1
      refine ⟨?_, ?_, ?_⟩
      · rw [hcur]
        simp [applyDb, chunkRows, List.append_assoc]
      · intro st hst
        refine hinv st ?_
        simp [applyDb, List.foldl_append, ← hst]
      · intro hp
        refine hplain (plain_append_one hp ?_)
        simp [isPlainOp]

theorem runChunks_error (failAt : Option Nat) (model fn : Str) :
    ∀ (cs : List Str) (i : Nat) (ts : TxState) (tr : List DbOp),
      runChunks failAt model fn i cs ts = .error tr →
      (∀ op ∈ ts.trace, isPlainOp op) → (∀ op ∈ tr, isPlainOp op) := by
  intro cs
  induction cs with
  | nil => intro i ts tr h; cases h
  | cons c cs ih =>
    intro i ts tr h hp
    unfold runChunks at h
    cases htry : tryOp failAt ts (.insertChunk (mkRow model fn i c)) with
    | error tr' =>
      rw [htry] at h; cases h
      rw [tryOp_error_eq htry]
      exact hp
    | ok ts1 =>
      rw [htry] at h
      have h1 := tryOp_ok_eq htry
      subst h1
      exact ih (i + 1) _ tr h (plain_append_one hp (by simp [isPlainOp]))

theorem runDocs_ok (failAt : Option Nat) (model : Str) :
    ∀ (docs : List (Str × Str)) (ts : TxState) (counts : Nat × Nat × Nat)
      (ts' : TxState) (counts' : Nat × Nat × Nat),
      runDocs failAt model docs ts counts = .ok (ts', counts') →
      (ts'.cur
          = (docs.foldl (ingestStep model)
              ⟨ts.cur, counts.1, counts.2.1, counts.2.2⟩).store
        ∧ counts'
          = ((docs.foldl (ingestStep model)
                ⟨ts.cur, counts.1, counts.2.1, counts.2.2⟩).inserted_docs,
             (docs.foldl (ingestStep model)
                ⟨ts.cur, counts.1, counts.2.1, counts.2.2⟩).skipped_docs,
             (docs.foldl (ingestStep model)
                ⟨ts.cur, counts.1, counts.2.1, counts.2.2⟩).total_chunks))
      ∧ (∀ st : Store, ts.cur = ts.trace.foldl applyDb st →
          ts'.cur = ts'.trace.foldl applyDb st)
      ∧ ((∀ op ∈ ts.trace, isPlainOp op) → (∀ op ∈ ts'.trace, isPlainOp op)) := by
  intro docs
  induction docs with
  | nil =>
    intro ts counts ts' counts' h
    cases h
    exact ⟨⟨rfl, rfl⟩, fun st hst => hst, fun hp => hp⟩
  | cons d rest ih =>
    obtain ⟨fn, t⟩ := d
    intro ts counts ts' counts' h
    unfold runDocs at h
    split at h
    · exact Except.noConfusion h
    next ts1 hs =>
      have h1 := tryOp_ok_eq hs
      split at h
      next hE =>
        rcases ih _ _ _ _ h with ⟨⟨hcur, hcounts⟩, hinv, hplain⟩
        subst h1
        simp only [applyDb] at hE hcur hcounts hinv hplain
        have hstep : ingestStep model ⟨ts.cur, counts.1, counts.2.1, counts.2.2⟩ (fn, t)
            = ⟨ts.cur, counts.1, counts.2.1 + 1, counts.2.2⟩ := by
          unfold ingestStep
          simp [hE]
        refine ⟨⟨?_, ?_⟩, ?_, ?_⟩
        · rw [List.foldl_cons, hstep]; exact hcur
        · rw [List.foldl_cons, hstep]; exact hcounts
        · intro st hst
          refine hinv st ?_
          simp [applyDb, List.foldl_append, ← hst]
        · intro hp
          exact hplain (plain_append_one hp (by simp [isPlainOp]))
      next hE =>
        split at h
        · exact Except.noConfusion h
        next ts2 hd =>
          have h2 := tryOp_ok_eq hd
          split at h
          · exact Except.noConfusion h
          next ts3 hc =>
            rcases runChunks_ok failAt model fn _ _ _ _ hc with ⟨hcur3, hinv3, hplain3⟩
            rcases ih _ _ _ _ h with ⟨⟨hcur, hcounts⟩, hinv, hplain⟩
            subst h2
            subst h1
            simp only [applyDb] at hE hcur3 hinv3 hplain3
            have hstep : ingestStep model ⟨ts.cur, counts.1, counts.2.1, counts.2.2⟩ (fn, t)
                = ⟨ts3.cur, counts.1 + 1, counts.2.1,
                   counts.2.2 + (chunk_document_by_paragraphs t).length⟩ := by
              unfold ingestStep
              rw [if_neg hE]
              rw [hcur3]
            refine ⟨⟨?_, ?_⟩, ?_, ?_⟩
            · rw [List.foldl_cons, hstep]; exact hcur
            · rw [List.foldl_cons, hstep]; exact hcounts
            · intro st hst
              refine hinv st (hinv3 st ?_)
              simp [applyDb, List.foldl_append, ← hst]
            · intro hp
              refine hplain (hplain3 ?_)
              exact plain_append_one (plain_append_one hp (by simp [isPlainOp]))
                (by simp [isPlainOp])

theorem runDocs_error (failAt : Option Nat) (model : Str) :
    ∀ (docs : List (Str × Str)) (ts : TxState) (counts : Nat × Nat × Nat)
      (tr : List DbOp),
      runDocs failAt model docs ts counts = .error tr →
      (∀ op ∈ ts.trace, isPlainOp op) → (∀ op ∈ tr, isPlainOp op) := by
  intro docs
  induction docs with
  | nil => intro ts counts tr h; exact Except.noConfusion h
  | cons d rest ih =>
    obtain ⟨fn, t⟩ := d
    intro ts counts tr h hp
    unfold runDocs at h
    split at h
    next tr' hs =>
      cases h
      rw [tryOp_error_eq hs]
      exact hp
    next ts1 hs =>
      have h1 := tryOp_ok_eq hs
      have hp1 : ∀ op ∈ ts1.trace, isPlainOp op := by
        subst h1
        exact plain_append_one hp (by simp [isPlainOp])
      split at h
      next hE => exact ih _ _ _ h hp1
      next hE =>
        split at h
        next tr' hd =>
          cases h
          have := tryOp_error_eq hd
          subst this
          exact hp1
        next ts2 hd =>
          have h2 := tryOp_ok_eq hd
          have hp2 : ∀ op ∈ ts2.trace, isPlainOp op := by
            subst h2
            exact plain_append_one hp1 (by simp [isPlainOp])
          split at h
          next tr' hc =>
            cases h
            exact runChunks_error failAt model fn _ _ _ _ hc hp2
          next ts3 hc =>
            rcases runChunks_ok failAt model fn _ _ _ _ hc with ⟨_, _, hplain3⟩
            exact ih _ _ _ h (hplain3 hp2)

/-- C5: ingestion is atomic per run.  If any persistence operation fails
mid-run, the committed store equals the pre-run store (every write of the run
is rolled back), the trace ends with the rollback that precedes the re-raised
error, and no commit was issued; a commit is issued only on the success path,
as the final operation after all pairs were processed, exactly once, and then
the committed store is exactly the full failure-free run's result. -/
theorem c5_atomic_per_run (failAt : Option Nat) (model : Str) (st : Store)
    (docs : List (Str × Str)) :
    ((insert_embeddingsT failAt model st docs).2 = .error () →
       commitView st (insert_embeddingsT failAt model st docs).1 = st
       ∧ (insert_embeddingsT failAt model st docs).1.getLast? = some DbOp.rollbackTx
       ∧ DbOp.commitTx ∉ (insert_embeddingsT failAt model st docs).1)
    ∧ (∀ counts, (insert_embeddingsT failAt model st docs).2 = .ok counts →
       commitView st (insert_embeddingsT failAt model st docs).1
         = (insert_embeddings model st docs).store
       ∧ (insert_embeddingsT failAt model st docs).1.getLast? = some DbOp.commitTx
       ∧ (insert_embeddingsT failAt model st docs).1.count DbOp.commitTx = 1
       ∧ counts = ((insert_embeddings model st docs).inserted_docs,
           (insert_embeddings model st docs).skipped_docs,
           (insert_embeddings model st docs).total_chunks)) := by
  unfold insert_embeddingsT
  cases hrun : runDocs failAt model docs ⟨st, [], 0⟩ (0, 0, 0) with
  | error tr =>
    have hplain : ∀ op ∈ tr, isPlainOp op :=
      runDocs_error failAt model docs _ _ tr hrun (by intro op hop; cases hop)
    constructor
    · intro _
      refine ⟨?_, List.getLast?_concat _, ?_⟩
      · unfold commitView
        rw [List.foldl_append, foldl_applyTx_plain tr st st hplain]
        rfl
      · intro hmem
        rcases List.mem_append.mp hmem with hmem | hmem
        · exact (hplain _ hmem).1 rfl
        · simp at hmem
    · intro counts hcounts
      exact Except.noConfusion hcounts
  | ok p =>
    obtain ⟨ts, counts0⟩ := p
    dsimp only
    rcases runDocs_ok failAt model docs _ _ _ _ hrun with ⟨⟨hcur, hcounts⟩, hinv, hplain⟩
    have hplainT : ∀ op ∈ ts.trace, isPlainOp op :=
      hplain (by intro op hop; cases hop)
    have hInv : ts.cur = ts.trace.foldl applyDb st := hinv st rfl
    cases hcommit : tryOp failAt ts .commitTx with
    | error tr =>
      have htr := tryOp_error_eq hcommit
      subst htr
      dsimp only
      constructor
      · intro _
        refine ⟨?_, List.getLast?_concat _, ?_⟩
        · unfold commitView
          rw [List.foldl_append, foldl_applyTx_plain _ st st hplainT]
          rfl
        · intro hmem
          rcases List.mem_append.mp hmem with hmem | hmem
          · exact (hplainT _ hmem).1 rfl
          · simp at hmem
      · intro counts h
        exact Except.noConfusion h
    | ok ts2 =>
      have h2 := tryOp_ok_eq hcommit
      subst h2
      dsimp only
      constructor
      · intro h
        exact Except.noConfusion h
      · intro counts h
        cases h
        refine ⟨?_, List.getLast?_concat _, ?_, ?_⟩
        · unfold commitView
          rw [List.foldl_append, foldl_applyTx_plain _ st st hplainT]
          show ts.trace.foldl applyDb st = _
          rw [← hInv, hcur]
          rfl
        · rw [List.count_append]
          have hzero : ts.trace.count DbOp.commitTx = 0 :=
            List.count_eq_zero.mpr (fun hmem => (hplainT _ hmem).1 rfl)
          rw [hzero]
          rfl
        · exact hcounts

deriving instance DecidableEq for Except

theorem c5_atomic_per_run_witness :
    ((insert_embeddingsT (some 1) "m".data ⟨[], []⟩ [("a.txt".data, "x".data)]).2
        = .error ())
    ∧ (commitView ⟨[], []⟩
          (insert_embeddingsT (some 1) "m".data ⟨[], []⟩ [("a.txt".data, "x".data)]).1
        = ⟨[], []⟩
      ∧ (insert_embeddingsT (some 1) "m".data ⟨[], []⟩
          [("a.txt".data, "x".data)]).1.getLast? = some DbOp.rollbackTx
      ∧ DbOp.commitTx ∉
          (insert_embeddingsT (some 1) "m".data ⟨[], []⟩ [("a.txt".data, "x".data)]).1) :=
  ⟨by decide,
   (c5_atomic_per_run (some 1) "m".data ⟨[], []⟩ [("a.txt".data, "x".data)]).1
     (by decide)⟩

/-! ## The query pipeline (`ask_snowflake_rag.py`) -/

/-- The scored rows the retrieval SQL computes before ordering: one result
tuple `(filename, chunk_id, document_text, similarity)` per stored row, where
`similarity` is `VECTOR_COSINE_SIMILARITY(embedding, q_emb)`, modelled by the
opaque score function `sim` of the external store. -/
def scoredRows (sim : Embedding → Embedding → ℚ) (qEmb : Embedding)
    (rows : List Row) : List (Str × Nat × Str × ℚ) :=
  rows.map (fun r => (r.filename, r.chunk_id, r.document_text, sim r.embedding qEmb))

/-- `ORDER BY similarity DESC`: descending order on the score component. -/
def simDesc (a b : Str × Nat × Str × ℚ) : Prop := b.2.2.2 ≤ a.2.2.2

instance : DecidableRel simDesc :=
  fun a b => inferInstanceAs (Decidable (b.2.2.2 ≤ a.2.2.2))

instance : IsTotal (Str × Nat × Str × ℚ) simDesc :=
  ⟨fun a b => le_total b.2.2.2 a.2.2.2⟩

instance : IsTrans (Str × Nat × Str × ℚ) simDesc :=
  ⟨fun _ _ _ hab hbc => le_trans hbc hab⟩

/-- `retrieve_similar_chunks` (ask_snowflake_rag.py, lines 50-83): embed the
question with `EMBED_TEXT_768(embed_model, question)`, score every stored row
by cosine similarity against the question embedding, order descending by
similarity and return the first `top_k` rows (`LIMIT %s`).  Sorting models the
store's `ORDER BY`; order among equal scores is unspecified there and a sort
is one compliant refinement. -/
def retrieve_similar_chunks (sim : Embedding → Embedding → ℚ) (embed_model : Str)
    (st : Store) (question : Str) (top_k : Nat) : List (Str × Nat × Str × ℚ) :=
  (List.insertionSort simDesc
      (scoredRows sim ⟨embed_model, question⟩ st.document_embeddings)).take top_k

/-- Python `"\n\n".join(lines)`. -/
def joinSep (sep : Str) : List Str → Str
  | [] => []
  | [x] => x
  | x :: y :: xs => x ++ sep ++ joinSep sep (y :: xs)

/-- One line of the context block:
`f"[{filename} | chunk {chunk_id} | score={similarity:.4f}] {chunk_text}"`.
The fixed-point rendering `:.4f` of the score is display-only floating-point
formatting, modelled by the opaque formatter `fmt`. -/
def contextLine (fmt : ℚ → Str) (c : Str × Nat × Str × ℚ) : Str :=
  "[".data ++ c.1 ++ " | chunk ".data ++ (Nat.repr c.2.1).data ++ " | score=".data
    ++ fmt c.2.2.2 ++ "] ".data ++ c.2.2.1

/-- The prompt assembled by `generate_answer` (ask_snowflake_rag.py, lines
86-103). -/
def promptOf (fmt : ℚ → Str) (question : Str)
    (chunks : List (Str × Nat × Str × ℚ)) : Str :=
  "You are a helpful assistant answering from provided context only.\n".data
    ++ "If the answer is not in the context, say you do not know.\n\n".data
    ++ "Question:\n".data ++ question ++ "\n\n".data
    ++ "Context:\n".data ++ joinSep "\n\n".data (chunks.map (contextLine fmt))
    ++ "\n\n".data ++ "Answer:".data

/-- `generate_answer` (lines 86-114): submit the assembled prompt to
`SNOWFLAKE.CORTEX.COMPLETE` (the opaque `complete` collaborator) and return
its textual response. -/
def generate_answer (complete : Str → Str) (fmt : ℚ → Str) (question : Str)
    (chunks : List (Str × Nat × Str × ℚ)) : Str :=
  complete (promptOf fmt question chunks)

/-- Outcome of one `main` interaction in ask_snowflake_rag.py. -/
inductive QueryOutcome
  | warnedEmptyQuestion
  | noChunksFound
  | answered (answer : Str)
deriving DecidableEq

/-- The decision flow of `main` (ask_snowflake_rag.py, lines 127-149) after
the button press, paired with the number of completion-service invocations:
empty question warns; an empty retrieval reports "No chunks found" and
returns before answer generation; otherwise the answer is generated from the
retrieved chunks. -/
def rag_main (sim : Embedding → Embedding → ℚ) (complete : Str → Str)
    (fmt : ℚ → Str) (embed_model : Str) (st : Store) (question : Str)
    (top_k : Nat) : QueryOutcome × Nat :=
  if (pyStrip question).isEmpty then (.warnedEmptyQuestion, 0)
  else if (retrieve_similar_chunks sim embed_model st question top_k).isEmpty then
    (.noChunksFound, 0)
  else
    (.answered (generate_answer complete fmt question
        (retrieve_similar_chunks sim embed_model st question top_k)), 1)

/-- C7: similarity retrieval returns at most K results, ordered by descending
similarity score of the stored embeddings against the question embedding,
every result being one of the scored store rows; an empty store yields the
empty sequence (retrieval is total, never an error). -/
theorem c7_retrieval_sorted_topk (sim : Embedding → Embedding → ℚ)
    (embed_model question : Str) (k : Nat) (st : Store) (hk : 1 ≤ k) :
    (retrieve_similar_chunks sim embed_model st question k).length ≤ k
    ∧ List.Sorted simDesc (retrieve_similar_chunks sim embed_model st question k)
    ∧ (st.document_embeddings = [] →
        retrieve_similar_chunks sim embed_model st question k = [])
    ∧ (∀ x ∈ retrieve_similar_chunks sim embed_model st question k,
        x ∈ scoredRows sim ⟨embed_model, question⟩ st.document_embeddings) := by
  refine ⟨?_, ?_, ?_, ?_⟩
  · rw [retrieve_similar_chunks, List.length_take]
    exact min_le_left _ _
  · exact List.Pairwise.sublist (List.take_sublist _ _)
      (List.sorted_insertionSort simDesc _)
  · intro h
    simp [retrieve_similar_chunks, scoredRows, h]
  · intro x hx
    exact (List.perm_insertionSort simDesc _).subset
      (List.take_subset _ _ hx)

theorem c7_retrieval_sorted_topk_witness :
    (1 ≤ 2)
    ∧ ((retrieve_similar_chunks (fun _ _ => 0) "m".data ⟨[], []⟩ "q".data 2).length ≤ 2
      ∧ List.Sorted simDesc (retrieve_similar_chunks (fun _ _ => 0) "m".data ⟨[], []⟩ "q".data 2)
      ∧ ((⟨[], []⟩ : Store).document_embeddings = [] →
          retrieve_similar_chunks (fun _ _ => 0) "m".data ⟨[], []⟩ "q".data 2 = [])
      ∧ (∀ x ∈ retrieve_similar_chunks (fun _ _ => 0) "m".data ⟨[], []⟩ "q".data 2,
          x ∈ scoredRows (fun _ _ => 0) ⟨"m".data, "q".data⟩
            (⟨[], []⟩ : Store).document_embeddings)) :=
  ⟨by decide,
   c7_retrieval_sorted_topk (fun _ _ => 0) "m".data "q".data 2 ⟨[], []⟩ (by decide)⟩

/-- C6: when retrieval returns no chunks (and the question is non-blank, so
the flow reaches retrieval), `main` reports the no-chunks outcome and the
completion service is invoked zero times; and whenever the completion service
is invoked at all, the retrieved sequence was non-empty and the reported
answer is the one generated from it. -/
theorem c6_empty_retrieval_short_circuits :
    (∀ (sim : Embedding → Embedding → ℚ) (complete : Str → Str) (fmt : ℚ → Str)
       (embed_model : Str) (st : Store) (question : Str) (k : Nat),
      (pyStrip question).isEmpty = false →
      retrieve_similar_chunks sim embed_model st question k = [] →
      rag_main sim complete fmt embed_model st question k
        = (QueryOutcome.noChunksFound, 0))
    ∧ (∀ (sim : Embedding → Embedding → ℚ) (complete : Str → Str) (fmt : ℚ → Str)
         (embed_model : Str) (st : Store) (question : Str) (k : Nat),
        0 < (rag_main sim complete fmt embed_model st question k).2 →
        retrieve_similar_chunks sim embed_model st question k ≠ []
        ∧ rag_main sim complete fmt embed_model st question k
            = (QueryOutcome.answered (generate_answer complete fmt question
                (retrieve_similar_chunks sim embed_model st question k)), 1)) := by
  constructor
  · intro sim complete fmt embed_model st question k hq hret
    rw [rag_main, if_neg (by simp [hq]), if_pos (by simp [hret])]
  · intro sim complete fmt embed_model st question k hcalls
    rw [rag_main] at hcalls
    by_cases hq : (pyStrip question).isEmpty
    · rw [if_pos hq] at hcalls
      simp at hcalls
    · rw [if_neg hq] at hcalls
      by_cases hret : (retrieve_similar_chunks sim embed_model st question k).isEmpty
      · rw [if_pos hret] at hcalls
        simp at hcalls
      · refine ⟨by simpa [List.isEmpty_iff] using hret, ?_⟩
        rw [rag_main, if_neg hq, if_neg hret]

theorem c6_empty_retrieval_short_circuits_witness :
    ((pyStrip "hi".data).isEmpty = false)
    ∧ (retrieve_similar_chunks (fun _ _ => 0) "m".data ⟨[], []⟩ "hi".data 2 = [])
    ∧ rag_main (fun _ _ => 0) (fun _ => "ans".data) (fun _ => "0".data) "m".data
        ⟨[], []⟩ "hi".data 2 = (QueryOutcome.noChunksFound, 0) :=
  ⟨by decide, by decide,
   c6_empty_retrieval_short_circuits.1 (fun _ _ => 0) (fun _ => "ans".data)
     (fun _ => "0".data) "m".data ⟨[], []⟩ "hi".data 2 (by decide) (by decide)⟩

theorem infix_append_right {x l₁ : Str} (l₂ : Str) (h : x <:+: l₁) :
    x <:+: l₁ ++ l₂ := by
  rcases h with ⟨s, t, hst⟩
  exact ⟨s, t ++ l₂, by rw [← hst]; simp [List.append_assoc]⟩

theorem infix_append_left {x l₂ : Str} (l₁ : Str) (h : x <:+: l₂) :
    x <:+: l₁ ++ l₂ := by
  rcases h with ⟨s, t, hst⟩
  exact ⟨l₁ ++ s, t, by rw [← hst]; simp [List.append_assoc]⟩

theorem mem_joinSep_infix (sep : Str) :
    ∀ (xs : List Str) (x : Str), x ∈ xs → x <:+: joinSep sep xs := by
  intro xs
  induction xs with
  | nil => intro x hx; cases hx
  | cons y ys ih =>
    intro x hx
    cases ys with
    | nil =>
      rcases List.mem_singleton.mp hx with rfl
      exact List.infix_rfl
    | cons z zs =>
      rcases List.mem_cons.mp hx with rfl | hx
      · exact ⟨[], sep ++ joinSep sep (z :: zs), by simp [joinSep, List.append_assoc]⟩
      · have h1 := ih x hx
        have : joinSep sep (y :: z :: zs) = (y ++ sep) ++ joinSep sep (z :: zs) := by
          simp [joinSep, List.append_assoc]
        rw [this]
        exact infix_append_left _ h1

/-- C8: for a non-empty retrieval result, the answer returned is exactly the
completion service's response to the assembled prompt (unmodified); the
prompt contains the use-only-the-context instruction, the say-you-do-not-know
instruction, and the question verbatim; the prompt is the instruction lines
followed by the question block, the context blocks joined by a blank line in
input order, and the answer cue; and each retrieved chunk appears as its own
block labeled with its filename, chunk index and score. -/
theorem c8_prompt_assembly (complete : Str → Str) (fmt : ℚ → Str)
    (question : Str) (chunks : List (Str × Nat × Str × ℚ)) (hne : chunks ≠ []) :
    generate_answer complete fmt question chunks
      = complete (promptOf fmt question chunks)
    ∧ "answering from provided context only".data <:+: promptOf fmt question chunks
    ∧ "say you do not know".data <:+: promptOf fmt question chunks
    ∧ question <:+: promptOf fmt question chunks
    ∧ promptOf fmt question chunks
        = "You are a helpful assistant answering from provided context only.\n".data
          ++ "If the answer is not in the context, say you do not know.\n\n".data
          ++ "Question:\n".data ++ question ++ "\n\n".data ++ "Context:\n".data
          ++ joinSep "\n\n".data (chunks.map (contextLine fmt))
          ++ "\n\n".data ++ "Answer:".data
    ∧ ∀ c ∈ chunks,
        contextLine fmt c
          = "[".data ++ c.1 ++ " | chunk ".data ++ (Nat.repr c.2.1).data
            ++ " | score=".data ++ fmt c.2.2.2 ++ "] ".data ++ c.2.2.1
        ∧ contextLine fmt c <:+: promptOf fmt question chunks := by
  refine ⟨rfl, ?_, ?_, ?_, rfl, ?_⟩
  · have h1 : "answering from provided context only".data
        <:+: "You are a helpful assistant answering from provided context only.\n".data :=
      ⟨"You are a helpful assistant ".data, ".\n".data, by decide⟩
    exact infix_append_right _ (infix_append_right _ (infix_append_right _
      (infix_append_right _ (infix_append_right _ (infix_append_right _
        (infix_append_right _ (infix_append_right _ h1)))))))
  · have h2 : "say you do not know".data
        <:+: "If the answer is not in the context, say you do not know.\n\n".data :=
      ⟨"If the answer is not in the context, ".data, ".\n\n".data, by decide⟩
    exact infix_append_right _ (infix_append_right _ (infix_append_right _
      (infix_append_right _ (infix_append_right _ (infix_append_right _
        (infix_append_right _ (infix_append_left _ h2)))))))
  · exact infix_append_right _ (infix_append_right _ (infix_append_right _
      (infix_append_right _ (infix_append_right _
        (infix_append_left _ List.infix_rfl)))))
  · intro c hc
    refine ⟨rfl, ?_⟩
    have hJ : contextLine fmt c <:+: joinSep "\n\n".data (chunks.map (contextLine fmt)) :=
      mem_joinSep_infix _ _ _ (List.mem_map_of_mem (contextLine fmt) hc)
    exact infix_append_right _ (infix_append_right _ (infix_append_left _ hJ))

theorem c8_prompt_assembly_witness :
    (([("f.txt".data, 1, "body".data, (1 : ℚ))] : List (Str × Nat × Str × ℚ)) ≠ [])
    ∧ (generate_answer (fun p => p) (fun _ => "1.0000".data) "why?".data
          [("f.txt".data, 1, "body".data, (1 : ℚ))]
        = (fun p => p) (promptOf (fun _ => "1.0000".data) "why?".data
            [("f.txt".data, 1, "body".data, (1 : ℚ))])
      ∧ "answering from provided context only".data
          <:+: promptOf (fun _ => "1.0000".data) "why?".data
            [("f.txt".data, 1, "body".data, (1 : ℚ))]
      ∧ "say you do not know".data
          <:+: promptOf (fun _ => "1.0000".data) "why?".data
            [("f.txt".data, 1, "body".data, (1 : ℚ))]
      ∧ "why?".data <:+: promptOf (fun _ => "1.0000".data) "why?".data
            [("f.txt".data, 1, "body".data, (1 : ℚ))]
      ∧ promptOf (fun _ => "1.0000".data) "why?".data
            [("f.txt".data, 1, "body".data, (1 : ℚ))]
          = "You are a helpful assistant answering from provided context only.\n".data
            ++ "If the answer is not in the context, say you do not know.\n\n".data
            ++ "Question:\n".data ++ "why?".data ++ "\n\n".data ++ "Context:\n".data
            ++ joinSep "\n\n".data
                (([("f.txt".data, 1, "body".data, (1 : ℚ))].map
                  (contextLine (fun _ => "1.0000".data))))
            ++ "\n\n".data ++ "Answer:".data
      ∧ ∀ c ∈ ([("f.txt".data, 1, "body".data, (1 : ℚ))] : List (Str × Nat × Str × ℚ)),
          contextLine (fun _ => "1.0000".data) c
            = "[".data ++ c.1 ++ " | chunk ".data ++ (Nat.repr c.2.1).data
              ++ " | score=".data ++ (fun _ : ℚ => "1.0000".data) c.2.2.2
              ++ "] ".data ++ c.2.2.1
          ∧ contextLine (fun _ => "1.0000".data) c
              <:+: promptOf (fun _ => "1.0000".data) "why?".data
                [("f.txt".data, 1, "body".data, (1 : ℚ))]) :=
  ⟨by decide,
   c8_prompt_assembly (fun p => p) (fun _ => "1.0000".data) "why?".data
     [("f.txt".data, 1, "body".data, (1 : ℚ))] (by decide)⟩

/-! ## Lemmas about `dropWhile`, `pyStrip` -/

theorem dropWhile_append_of_all {p : Char → Bool} {u : Str} (x : Str)
    (h : ∀ c ∈ u, p c = true) : (u ++ x).dropWhile p = x.dropWhile p := by
  induction u with
  | nil => rfl
  | cons c u ih =>
    rw [List.cons_append, List.dropWhile_cons_of_pos (h c (List.mem_cons_self c u))]
    exact ih (fun d hd => h d (List.mem_cons_of_mem c hd))

theorem dropWhile_append_of_ne_nil {p : Char → Bool} :
    ∀ (x u : Str), x.dropWhile p ≠ [] →
      (x ++ u).dropWhile p = x.dropWhile p ++ u := by
  intro x
  induction x with
  | nil => intro u h; exact absurd rfl h
  | cons c x ih =>
    intro u h
    by_cases hp : p c = true
    · rw [List.dropWhile_cons_of_pos hp] at h
      rw [List.cons_append, List.dropWhile_cons_of_pos hp,
        List.dropWhile_cons_of_pos hp]
      exact ih u h
    · rw [List.cons_append, List.dropWhile_cons_of_neg (by simp [hp]),
        List.dropWhile_cons_of_neg (by simp [hp]), List.cons_append]

theorem head?_dropWhile {p : Char → Bool} :
    ∀ (l : Str) (c : Char), (l.dropWhile p).head? = some c → p c = false := by
  intro l
  induction l with
  | nil => intro c h; cases h
  | cons d l ih =>
    intro c h
    by_cases hp : p d = true
    · rw [List.dropWhile_cons_of_pos hp] at h
      exact ih c h
    · rw [List.dropWhile_cons_of_neg (by simp [hp])] at h
      cases h
      simp at hp
      exact hp

theorem dropWhile_of_head_neg {p : Char → Bool} :
    ∀ (l : Str), (∀ c, l.head? = some c → p c = false) → l.dropWhile p = l := by
  intro l h
  cases l with
  | nil => rfl
  | cons c l => exact List.dropWhile_cons_of_neg (by simp [h c rfl])

theorem pyStrip_ws_left {u : Str} (hu : ∀ c ∈ u, isSpace c = true) (x : Str) :
    pyStrip (u ++ x) = pyStrip x := by
  unfold pyStrip
  rw [dropWhile_append_of_all x hu]

theorem pyStrip_eq_nil_of_ws {x : Str} (h : ∀ c ∈ x, isSpace c = true) :
    pyStrip x = [] := by
  have hx : x.dropWhile isSpace = [] :=
    List.dropWhile_eq_nil_iff.mpr (fun d hd => h d hd)
  unfold pyStrip
  rw [hx]
  rfl

theorem pyStrip_ne_nil {x : Str} (h : ∃ c ∈ x, isSpace c = false) :
    pyStrip x ≠ [] := by
  rcases h with ⟨c, hc, hns⟩
  intro hcontra
  unfold pyStrip at hcontra
  rw [List.reverse_eq_nil_iff] at hcontra
  have h3 : ∀ d ∈ x.dropWhile isSpace, isSpace d = true := by
    intro d hd
    exact List.dropWhile_eq_nil_iff.mp hcontra d (List.mem_reverse.mpr hd)
  have h4 : ∀ d ∈ x.takeWhile isSpace, isSpace d = true :=
    fun d hd => List.mem_takeWhile_imp hd
  have hx : x.takeWhile isSpace ++ x.dropWhile isSpace = x :=
    List.takeWhile_append_dropWhile isSpace x
  rw [← hx] at hc
  rcases List.mem_append.mp hc with hc | hc
  · rw [h4 c hc] at hns; cases hns
  · rw [h3 c hc] at hns; cases hns

theorem pyStrip_ws_right {x : Str} (u : Str) (hu : ∀ c ∈ u, isSpace c = true) :
    pyStrip (x ++ u) = pyStrip x := by
  by_cases h : x.dropWhile isSpace = []
  · have hx : ∀ c ∈ x, isSpace c = true := List.dropWhile_eq_nil_iff.mp h
    rw [pyStrip_eq_nil_of_ws hx, pyStrip_eq_nil_of_ws ?all]
    case all =>
      intro d hd
      rcases List.mem_append.mp hd with hd | hd
      · exact hx d hd
      · exact hu d hd
  · unfold pyStrip
    rw [dropWhile_append_of_ne_nil x u h, List.reverse_append,
      dropWhile_append_of_all _ (fun d hd => hu d (List.mem_reverse.mp hd))]

theorem pyStrip_idem (x : Str) : pyStrip (pyStrip x) = pyStrip x := by
  have hsplit : ((x.dropWhile isSpace).reverse.dropWhile isSpace).reverse
      ++ ((x.dropWhile isSpace).reverse.takeWhile isSpace).reverse
      = x.dropWhile isSpace := by
    rw [← List.reverse_append, List.takeWhile_append_dropWhile, List.reverse_reverse]
  have h1 : (((x.dropWhile isSpace).reverse.dropWhile isSpace).reverse).dropWhile isSpace
      = ((x.dropWhile isSpace).reverse.dropWhile isSpace).reverse := by
    refine dropWhile_of_head_neg _ ?_
    intro c hc
    refine head?_dropWhile x c ?_
    rw [← hsplit]
    cases hbr : ((x.dropWhile isSpace).reverse.dropWhile isSpace).reverse with
    | nil => rw [hbr] at hc; cases hc
    | cons d rest =>
      rw [hbr] at hc
      cases hc
      rfl
  have h2 : ((x.dropWhile isSpace).reverse.dropWhile isSpace).dropWhile isSpace
      = (x.dropWhile isSpace).reverse.dropWhile isSpace :=
    dropWhile_of_head_neg _ (head?_dropWhile (x.dropWhile isSpace).reverse)
  show pyStrip (((x.dropWhile isSpace).reverse.dropWhile isSpace).reverse) = _
  unfold pyStrip
  rw [h1, List.reverse_reverse, h2]

/-! ## Glob-pattern lemmas and claim C10 -/

theorem globMatch_literal :
    ∀ (lit : Str), '*' ∉ lit → ∀ s : Str, (globMatch lit s = true ↔ s = lit) := by
  intro lit
  induction lit with
  | nil => intro _ s; simp [globMatch, List.isEmpty_iff]
  | cons c lit ih =>
    intro hstar s
    have hc : ¬(c = '*') := fun h => hstar (h ▸ List.mem_cons_self c lit)
    have hstar' : '*' ∉ lit := fun h => hstar (List.mem_cons_of_mem c h)
    cases s with
    | nil => simp [globMatch, hc]
    | cons d s' =>
      simp only [globMatch, if_neg hc, Bool.and_eq_true, decide_eq_true_eq]
      rw [ih hstar' s']
      constructor
      · rintro ⟨rfl, rfl⟩; rfl
      · intro h; cases h; exact ⟨rfl, rfl⟩

theorem globMatch_star (lit : Str) (hstar : '*' ∉ lit) (s : Str) :
    globMatch ('*' :: lit) s = true ↔ lit <:+ s := by
  show (if ('*' : Char) = '*' then s.tails.any (fun t => globMatch lit t)
      else _) = true ↔ _
  rw [if_pos rfl, List.any_eq_true]
  constructor
  · rintro ⟨t, ht, hglob⟩
    rw [globMatch_literal lit hstar t] at hglob
    subst hglob
    exact (List.mem_tails _ _).mp ht
  · intro hsuf
    exact ⟨lit, (List.mem_tails _ _).mpr hsuf,
      (globMatch_literal lit hstar lit).mpr rfl⟩

theorem globMatch_txt (s : Str) :
    globMatch "*.txt".data s = decide (".txt".data <:+ s) := by
  have he : "*.txt".data = '*' :: ".txt".data := by decide
  rw [he]
  by_cases hs : ".txt".data <:+ s
  · rw [(globMatch_star ".txt".data (by decide) s).mpr hs]
    simp [hs]
  · have hne' : globMatch ('*' :: ".txt".data) s = false := by
      cases hB : globMatch ('*' :: ".txt".data) s
      · rfl
      · exact absurd ((globMatch_star ".txt".data (by decide) s).mp hB) hs
    rw [hne']
    simp [hs]

theorem filterMap_strip_eq :
    ∀ (l : List (Str × Str)) (q : Str × Str → Bool),
      (l.filter q).filterMap
          (fun e => if (pyStrip e.2).isEmpty then none else some (e.1, pyStrip e.2))
        = (l.filter (fun e => q e && !(pyStrip e.2).isEmpty)).map
            (fun e => (e.1, pyStrip e.2)) := by
  intro l q
  induction l with
  | nil => rfl
  | cons e l ih =>
    by_cases h1 : q e = true
    · by_cases h2 : (pyStrip e.2).isEmpty = true
      · rw [List.filter_cons, if_pos h1,
          List.filterMap_cons_none (by rw [if_pos h2]),
          List.filter_cons, if_neg (by simp [h1, h2]), ih]
      · rw [List.filter_cons, if_pos h1,
          List.filterMap_cons_some (by rw [if_neg h2]),
          List.filter_cons, if_pos (by simp [h1, h2]), List.map_cons, ih]
    · rw [List.filter_cons, if_neg h1, List.filter_cons,
        if_neg (by simp [h1]), ih]

/-- C10: `read_documents` returns exactly the listed files whose name ends in
".txt" and whose content is non-empty after stripping leading/trailing
whitespace, in listing order, paired with the stripped content; all other
files are excluded. -/
theorem c10_read_documents (listing : List (Str × Str)) :
    read_documents listing
      = (listing.filter (fun e => decide (".txt".data <:+ e.1)
          && !(pyStrip e.2).isEmpty)).map (fun e => (e.1, pyStrip e.2)) := by
  unfold read_documents
  rw [List.filter_congr (fun e _ => globMatch_txt e.1)]
  exact filterMap_strip_eq listing _

/-! ## Claim C3: chunker edge cases -/

theorem splitGo_no_blank :
    ∀ (cs : Str), hasBlankRun cs = false →
      ∀ acc, splitGo false acc cs = [acc.reverse ++ cs] := by
  intro cs
  induction cs with
  | nil => intro h acc; simp [splitGo]
  | cons c cs ih =>
    intro h acc
    simp only [hasBlankRun, Bool.or_eq_false_iff] at h
    have hcond : ¬(c = '\n' && (nlSkip cs).isSome) = true := by
      rw [h.1]
      exact Bool.false_ne_true
    simp only [splitGo, if_neg hcond]
    rw [ih h.2 (c :: acc)]
    simp

theorem splitGo_all_ws :
    ∀ (cs : Str) (mode : Bool) (acc : Str),
      (∀ c ∈ cs, isSpace c = true) → (∀ c ∈ acc, isSpace c = true) →
      ∀ p ∈ splitGo mode acc cs, ∀ c ∈ p, isSpace c = true := by
  intro cs
  induction cs with
  | nil =>
    intro mode acc _ hacc p hp c hc
    cases mode <;>
      (simp only [splitGo, List.mem_singleton] at hp; subst hp;
       exact hacc c (List.mem_reverse.mp hc))
  | cons d cs ih =>
    intro mode acc hcs hacc p hp c hc
    have hd : isSpace d = true := hcs d (List.mem_cons_self d cs)
    have hcs' : ∀ e ∈ cs, isSpace e = true :=
      fun e he => hcs e (List.mem_cons_of_mem d he)
    have hacc' : ∀ e ∈ d :: acc, isSpace e = true := by
      intro e he
      rcases List.mem_cons.mp he with rfl | he
      · exact hd
      · exact hacc e he
    cases mode
    · simp only [splitGo] at hp
      by_cases hif : (d = '\n' && (nlSkip cs).isSome) = true
      · rw [if_pos hif] at hp
        rcases List.mem_cons.mp hp with rfl | hp
        · exact hacc c (List.mem_reverse.mp hc)
        · exact ih true [] hcs' (by intro e he; cases he) p hp c hc
      · rw [if_neg hif] at hp
        exact ih false (d :: acc) hcs' hacc' p hp c hc
    · simp only [splitGo] at hp
      by_cases hif : (nlSkip (d :: cs)).isSome = true
      · rw [if_pos hif] at hp
        exact ih true acc hcs' hacc p hp c hc
      · rw [if_neg hif] at hp
        exact ih false (d :: acc) hcs' hacc' p hp c hc

/-- C3: chunker edge cases.  (1) A text with no blank-line separator and at
least one non-whitespace character yields exactly one chunk, the whole
trimmed text.  (2) A whitespace-only (or empty) text yields zero chunks.
(3) No blank chunk ever appears in the output: every produced chunk is
non-empty and already trimmed. -/
theorem c3_chunker_edge_cases :
    (∀ text : Str, hasBlankRun text = false → (∃ c ∈ text, isSpace c = false) →
      chunk_document_by_paragraphs text = [pyStrip text])
    ∧ (∀ text : Str, (∀ c ∈ text, isSpace c = true) →
        chunk_document_by_paragraphs text = [])
    ∧ (∀ (text : Str) (p : Str), p ∈ chunk_document_by_paragraphs text →
        p ≠ [] ∧ pyStrip p = p) := by
  refine ⟨?_, ?_, ?_⟩
  · intro text h hne
    unfold chunk_document_by_paragraphs
    rw [splitGo_no_blank text h []]
    have hne' : (pyStrip text).isEmpty = false := by
      cases hh : pyStrip text
      · exact absurd hh (pyStrip_ne_nil hne)
      · rfl
    simp [List.filter_cons, hne']
  · intro text h
    unfold chunk_document_by_paragraphs
    rw [List.filter_eq_nil_iff]
    intro a ha
    rcases List.mem_map.mp ha with ⟨q, hq, rfl⟩
    have hqws : ∀ c ∈ q, isSpace c = true :=
      splitGo_all_ws text false [] h (by intro e he; cases he) q hq
    simp [pyStrip_eq_nil_of_ws hqws]
  · intro text p hp
    unfold chunk_document_by_paragraphs at hp
    rcases List.mem_filter.mp hp with ⟨hpmem, hpb⟩
    rcases List.mem_map.mp hpmem with ⟨q, hq, rfl⟩
    refine ⟨?_, pyStrip_idem q⟩
    simpa [List.isEmpty_iff] using hpb

theorem c3_chunker_edge_cases_witness :
    (hasBlankRun "ab cd".data = false)
    ∧ (∃ c ∈ "ab cd".data, isSpace c = false)
    ∧ (chunk_document_by_paragraphs "ab cd".data = [pyStrip "ab cd".data])
    ∧ (∀ c ∈ " \n ".data, isSpace c = true)
    ∧ (chunk_document_by_paragraphs " \n ".data = [])
    ∧ ("a".data ∈ chunk_document_by_paragraphs "a\n\nb".data)
    ∧ ("a".data ≠ ([] : Str) ∧ pyStrip "a".data = "a".data) :=
  ⟨by decide, by decide,
   c3_chunker_edge_cases.1 "ab cd".data (by decide) (by decide),
   by decide,
   c3_chunker_edge_cases.2.1 " \n ".data (by decide),
   by decide,
   c3_chunker_edge_cases.2.2 "a\n\nb".data "a".data (by decide)⟩

/-! ## Claim C2: the chunker refines the spec-side splitter -/

/-- Characters other than `'\n'`. -/
def notNL (c : Char) : Bool := !decide (c = '\n')

/-- The suffix of `q` after its last `'\n'` (all of `q` when it has none). -/
def afterLast (q : Str) : Str := (q.reverse.takeWhile notNL).reverse

/-- Strip each piece and keep the non-empty results (the common tail of both
chunkers). -/
def stripFilter (l : List Str) : List Str :=
  (l.map pyStrip).filter (fun p => !p.isEmpty)

theorem stripFilter_cons (x : Str) (l : List Str) :
    stripFilter (x :: l)
      = if (pyStrip x).isEmpty then stripFilter l else pyStrip x :: stripFilter l := by
  unfold stripFilter
  rw [List.map_cons, List.filter_cons]
  cases h : (pyStrip x).isEmpty
  · simp [h]
  · simp [h]

theorem takeWhile_append_of_stop {p : Char → Bool} :
    ∀ (a b : Str), (∃ c ∈ a, p c = false) →
      (a ++ b).takeWhile p = a.takeWhile p := by
  intro a
  induction a with
  | nil => intro b h; simp at h
  | cons c a ih =>
    intro b h
    by_cases hc : p c = true
    · rw [List.cons_append, List.takeWhile_cons_of_pos hc,
        List.takeWhile_cons_of_pos hc]
      rcases h with ⟨d, hd, hdp⟩
      rcases List.mem_cons.mp hd with rfl | hd
      · rw [hc] at hdp; cases hdp
      · rw [ih b ⟨d, hd, hdp⟩]
    · rw [List.cons_append, List.takeWhile_cons_of_neg (by simp [hc]),
        List.takeWhile_cons_of_neg (by simp [hc])]

theorem takeWhile_append_of_all {p : Char → Bool} :
    ∀ (a b : Str), (∀ c ∈ a, p c = true) →
      (a ++ b).takeWhile p = a ++ b.takeWhile p := by
  intro a
  induction a with
  | nil => intro b _; rfl
  | cons c a ih =>
    intro b h
    rw [List.cons_append, List.takeWhile_cons_of_pos (h c (List.mem_cons_self c a)),
      ih b (fun d hd => h d (List.mem_cons_of_mem c hd)), List.cons_append]

theorem afterLast_no_nl {q : Str} (h : '\n' ∉ q) : afterLast q = q := by
  unfold afterLast
  rw [List.takeWhile_eq_self_iff.mpr ?_, List.reverse_reverse]
  intro c hc
  have : c ≠ '\n' := fun hcc => h (hcc ▸ List.mem_reverse.mp hc)
  simp [notNL, this]

theorem afterLast_cons_of_mem {q : Str} (d : Char) (h : '\n' ∈ q) :
    afterLast (d :: q) = afterLast q := by
  unfold afterLast
  rw [List.reverse_cons,
    takeWhile_append_of_stop _ _ ⟨'\n', List.mem_reverse.mpr h, by simp [notNL]⟩]

theorem afterLast_nl_cons {q : Str} (h : '\n' ∉ q) : afterLast ('\n' :: q) = q := by
  unfold afterLast
  rw [List.reverse_cons,
    takeWhile_append_of_all _ _ ?_]
  · rw [List.takeWhile_cons_of_neg (by simp [notNL]), List.append_nil,
      List.reverse_reverse]
  · intro c hc
    have : c ≠ '\n' := fun hcc => h (hcc ▸ List.mem_reverse.mp hc)
    simp [notNL, this]

theorem afterLast_subset {q : Str} : ∀ c ∈ afterLast q, c ∈ q := by
  intro c hc
  unfold afterLast at hc
  exact List.mem_reverse.mp
    ((List.takeWhile_prefix notNL).subset (List.mem_reverse.mp hc))

theorem nlSkip_none {q : Str} (hq : ∀ c ∈ q, isSpace c = true) (hnl : '\n' ∉ q)
    {r : Str} (hr : ∀ c, r.head? = some c → isSpace c = false) :
    nlSkip (q ++ r) = none := by
  induction q with
  | nil =>
    cases r with
    | nil => rfl
    | cons e r' =>
      have he : isSpace e = false := hr e rfl
      have hne : ¬(e = '\n') := fun h => by
        rw [h] at he
        exact absurd he (by decide)
      simp [nlSkip, hne, he]
  | cons d q' ih =>
    have hd : isSpace d = true := hq d (List.mem_cons_self d q')
    have hdn : ¬(d = '\n') := fun h => hnl (h ▸ List.mem_cons_self d q')
    rw [List.cons_append]
    show nlSkip (d :: (q' ++ r)) = none
    rw [nlSkip]
    rw [if_neg (by simp [hdn]), if_pos hd]
    exact ih (fun e he => hq e (List.mem_cons_of_mem d he))
      (fun h => hnl (List.mem_cons_of_mem d h))

theorem nlSkip_isSome {q : Str} (hq : ∀ c ∈ q, isSpace c = true) (hnl : '\n' ∈ q)
    (r : Str) : (nlSkip (q ++ r)).isSome = true := by
  induction q with
  | nil => cases hnl
  | cons d q' ih =>
    rw [List.cons_append]
    show (nlSkip (d :: (q' ++ r))).isSome = true
    rw [nlSkip]
    by_cases hd : d = '\n'
    · rw [if_pos hd]
      rfl
    · rw [if_neg hd, if_pos (hq d (List.mem_cons_self d q'))]
      exact ih (fun e he => hq e (List.mem_cons_of_mem d he))
        (by rcases List.mem_cons.mp hnl with h | h
            · exact absurd h.symm hd
            · exact h)

theorem splitGo_nil (mode : Bool) (acc : Str) : splitGo mode acc [] = [acc.reverse] := by
  cases mode <;> rfl

theorem splitGo_false_cons (acc : Str) (c : Char) (cs : Str) :
    splitGo false acc (c :: cs)
      = if c = '\n' && (nlSkip cs).isSome then acc.reverse :: splitGo true [] cs
        else splitGo false (c :: acc) cs := rfl

theorem splitGo_true_cons (acc : Str) (c : Char) (cs : Str) :
    splitGo true acc (c :: cs)
      = if (nlSkip (c :: cs)).isSome then splitGo true acc cs
        else splitGo false (c :: acc) cs := rfl

theorem wsTake_props :
    ∀ cs : Str, (wsTake cs).1 ++ (wsTake cs).2 = cs
      ∧ (∀ c ∈ (wsTake cs).1, isSpace c = true)
      ∧ (∀ c, (wsTake cs).2.head? = some c → isSpace c = false) := by
  intro cs
  induction cs with
  | nil =>
    refine ⟨rfl, ?_, ?_⟩
    · intro c hc
      simp [wsTake] at hc
    · intro c hc
      simp [wsTake] at hc
  | cons c cs ih =>
    by_cases hc : isSpace c = true
    · have hw : wsTake (c :: cs) = ((wsTake cs).1.cons c, (wsTake cs).2) := by
        rw [wsTake, if_pos hc]
      rw [hw]
      refine ⟨?_, ?_, ih.2.2⟩
      · show c :: ((wsTake cs).1 ++ (wsTake cs).2) = c :: cs
        rw [ih.1]
      · intro d hd
        rcases List.mem_cons.mp hd with rfl | hd
        · exact hc
        · exact ih.2.1 d hd
    · have hw : wsTake (c :: cs) = ([], c :: cs) := by
        rw [wsTake, if_neg hc]
      rw [hw]
      refine ⟨rfl, ?_, ?_⟩
      · intro d hd
        cases hd
      · intro d hd
        cases hd
        cases hb : isSpace c
        · rfl
        · exact absurd hb hc

theorem split_at_first_nl {w : Str} (h : '\n' ∈ w) :
    w = w.takeWhile notNL ++ '\n' :: (w.dropWhile notNL).tail
      ∧ '\n' ∉ w.takeWhile notNL := by
  have hne : w.dropWhile notNL ≠ [] := by
    intro hd
    have := List.dropWhile_eq_nil_iff.mp hd '\n' h
    simp [notNL] at this
  have hnotin : '\n' ∉ w.takeWhile notNL := by
    intro hmem
    have := List.mem_takeWhile_imp hmem
    simp [notNL] at this
  refine ⟨?_, hnotin⟩
  cases hd : w.dropWhile notNL with
  | nil => exact absurd hd hne
  | cons d rest =>
    have hdnl : d = '\n' := by
      have := head?_dropWhile w d (by rw [hd]; rfl)
      simpa [notNL] using this
    subst hdnl
    conv_lhs => rw [← List.takeWhile_append_dropWhile notNL w]
    rw [hd]
    rfl

theorem splitGo_false_walk {p₁ : Str} (h : '\n' ∉ p₁) :
    ∀ (acc rest : Str),
      splitGo false acc (p₁ ++ rest) = splitGo false (p₁.reverse ++ acc) rest := by
  induction p₁ with
  | nil => intro acc rest; simp
  | cons c p₁ ih =>
    intro acc rest
    have hc : ¬(c = '\n') := fun hcc => h (hcc ▸ List.mem_cons_self c p₁)
    rw [List.cons_append, splitGo_false_cons, if_neg (by simp [hc])]
    rw [ih (fun hm => h (List.mem_cons_of_mem c hm)) (c :: acc) rest]
    simp [List.append_assoc]

theorem splitGo_false_ws_run {w₁ : Str} (hw : ∀ c ∈ w₁, isSpace c = true)
    (hcount : w₁.count '\n' ≤ 1) {r : Str}
    (hr : ∀ c, r.head? = some c → isSpace c = false) :
    ∀ acc, splitGo false acc (w₁ ++ r) = splitGo false (w₁.reverse ++ acc) r := by
  intro acc
  by_cases hnl : '\n' ∈ w₁
  · rcases split_at_first_nl hnl with ⟨hdec, hp₁⟩
    set p₁ := w₁.takeWhile notNL with hp₁def
    set q := (w₁.dropWhile notNL).tail with hqdef
    have hqsub : ∀ c ∈ q, c ∈ w₁ := by
      intro c hc
      rw [hdec]
      exact List.mem_append.mpr (Or.inr (List.mem_cons_of_mem _ hc))
    have hqws : ∀ c ∈ q, isSpace c = true := fun c hc => hw c (hqsub c hc)
    have hqnl : '\n' ∉ q := by
      intro hq
      have hone : List.count '\n' ('\n' :: q) = List.count '\n' q + 1 := by
        simp [List.count_cons]
      have hcnt : w₁.count '\n' = p₁.count '\n' + (q.count '\n' + 1) := by
        conv_lhs => rw [hdec]
        rw [List.count_append, hone]
      have h0 : p₁.count '\n' = 0 := List.count_eq_zero.mpr hp₁
      have h1 : 1 ≤ q.count '\n' := List.one_le_count_iff.mpr hq
      omega
    conv_lhs => rw [hdec, List.append_assoc, List.cons_append]
    rw [splitGo_false_walk hp₁ acc ('\n' :: (q ++ r))]
    rw [splitGo_false_cons, if_neg ?cond]
    case cond =>
      rw [nlSkip_none hqws hqnl hr]
      simp
    rw [splitGo_false_walk hqnl ('\n' :: (p₁.reverse ++ acc)) r]
    rw [hdec]
    simp [List.append_assoc]
  · exact splitGo_false_walk hnl acc r

theorem splitGo_true_consume :
    ∀ (q : Str), (∀ c ∈ q, isSpace c = true) →
      ∀ (r : Str), (∀ c, r.head? = some c → isSpace c = false) →
      ∀ acc, splitGo true acc (q ++ r)
        = splitGo false ((afterLast q).reverse ++ acc) r := by
  intro q
  induction q with
  | nil =>
    intro _ r hr acc
    rw [afterLast_no_nl (by intro h; cases h), List.nil_append]
    show splitGo true acc r = splitGo false acc r
    cases r with
    | nil => rw [splitGo_nil, splitGo_nil]
    | cons e r' =>
      have he : isSpace e = false := hr e rfl
      have hne : ¬(e = '\n') := fun h => by
        rw [h] at he
        exact absurd he (by decide)
      have hskip : nlSkip (e :: r') = none := by
        rw [nlSkip, if_neg hne, if_neg (by simp [he])]
      rw [splitGo_true_cons, hskip, if_neg (by simp),
        splitGo_false_cons, if_neg (by simp [hne])]
  | cons d q' ih =>
    intro hq r hr acc
    have hq' : ∀ c ∈ q', isSpace c = true :=
      fun c hc => hq c (List.mem_cons_of_mem d hc)
    rw [List.cons_append, splitGo_true_cons]
    by_cases hnl : '\n' ∈ d :: q'
    · rw [if_pos ?c2]
      case c2 =>
        have := nlSkip_isSome hq hnl r
        rwa [List.cons_append] at this
      rw [ih hq' r hr acc]
      rcases List.mem_cons.mp hnl with hdd | hmem
      · by_cases hq'nl : '\n' ∈ q'
        · rw [afterLast_cons_of_mem d hq'nl]
        · rw [← hdd, afterLast_nl_cons hq'nl, afterLast_no_nl hq'nl]
      · rw [afterLast_cons_of_mem d hmem]
    · rw [if_neg ?c3]
      case c3 =>
        have := nlSkip_none hq hnl hr
        rw [List.cons_append] at this
        rw [this]
        simp
      have hq'nl : '\n' ∉ q' := fun hm => hnl (List.mem_cons_of_mem d hm)
      rw [splitGo_false_walk hq'nl (d :: acc) r, afterLast_no_nl hnl]
      simp [List.append_assoc]

theorem specSplitAux_nil (acc : Str) : specSplitAux acc [] = [acc.reverse] := by
  rw [specSplitAux]

theorem specSplitAux_cons_ws (acc : Str) (c : Char) (cs : Str) (h : isSpace c = true) :
    specSplitAux acc (c :: cs)
      = if 2 ≤ (wsTake (c :: cs)).1.count '\n' then
          acc.reverse :: specSplitAux [] (wsTake (c :: cs)).2
        else specSplitAux ((wsTake (c :: cs)).1.reverse ++ acc) (wsTake (c :: cs)).2 := by
  rw [specSplitAux, dif_pos h]

theorem specSplitAux_cons_nonws (acc : Str) (c : Char) (cs : Str)
    (h : ¬isSpace c = true) :
    specSplitAux acc (c :: cs) = specSplitAux (c :: acc) cs := by
  rw [specSplitAux, dif_neg h]

theorem splitGo_spec_equiv_nil (acc w : Str) (hw : ∀ c ∈ w, isSpace c = true) :
    stripFilter (splitGo false (acc ++ w) [])
      = stripFilter (specSplitAux acc []) := by
  rw [splitGo_nil, specSplitAux_nil, stripFilter_cons, stripFilter_cons,
    List.reverse_append,
    pyStrip_ws_left (fun c hc => hw c (List.mem_reverse.mp hc)) acc.reverse]

theorem splitGo_spec_equiv :
    ∀ (n : Nat) (cs : Str), cs.length ≤ n → ∀ (acc w : Str),
      (∀ c ∈ w, isSpace c = true) →
      stripFilter (splitGo false (acc ++ w) cs)
        = stripFilter (specSplitAux acc cs) := by
  intro n
  induction n with
  | zero =>
    intro cs hlen acc w hw
    have hnil : cs = [] := List.length_eq_zero.mp (Nat.le_zero.mp hlen)
    subst hnil
    exact splitGo_spec_equiv_nil acc w hw
  | succ n ih =>
    intro cs hlen acc w hw
    cases cs with
    | nil => exact splitGo_spec_equiv_nil acc w hw
    | cons c cs' =>
      have hlen' : cs'.length ≤ n := by
        simp only [List.length_cons] at hlen
        omega
      by_cases hsp : isSpace c = true
      · obtain ⟨hdec, hws, hhead⟩ := wsTake_props (c :: cs')
        have hrlen : (wsTake (c :: cs')).2.length ≤ n := by
          have hsnd : (wsTake (c :: cs')).2 = (wsTake cs').2 := by
            rw [wsTake, if_pos hsp]
          rw [hsnd]
          exact le_trans (wsTake_snd_length cs') hlen'
        rw [specSplitAux_cons_ws acc c cs' hsp]
        by_cases h2 : 2 ≤ ((wsTake (c :: cs')).1).count '\n'
        · rw [if_pos h2]
          have hnlw : '\n' ∈ (wsTake (c :: cs')).1 := by
            by_contra hno
            rw [List.count_eq_zero.mpr hno] at h2
            omega
          rcases split_at_first_nl hnlw with ⟨hdec₁, hp₁nl⟩
          have hp₁ws : ∀ e ∈ ((wsTake (c :: cs')).1).takeWhile notNL,
              isSpace e = true :=
            fun e he => hws e ((List.takeWhile_prefix notNL).subset he)
          have hqsub : ∀ e ∈ (((wsTake (c :: cs')).1).dropWhile notNL).tail,
              e ∈ (wsTake (c :: cs')).1 := by
            intro e he
            rw [hdec₁]
            exact List.mem_append.mpr (Or.inr (List.mem_cons_of_mem _ he))
          have hqws : ∀ e ∈ (((wsTake (c :: cs')).1).dropWhile notNL).tail,
              isSpace e = true := fun e he => hws e (hqsub e he)
          have hqnl : '\n' ∈ (((wsTake (c :: cs')).1).dropWhile notNL).tail := by
            by_contra hno
            have hone : List.count '\n'
                ('\n' :: (((wsTake (c :: cs')).1).dropWhile notNL).tail)
                = List.count '\n' ((((wsTake (c :: cs')).1).dropWhile notNL).tail) + 1 := by
              simp [List.count_cons]
            have h0 : (((wsTake (c :: cs')).1).takeWhile notNL).count '\n' = 0 :=
              List.count_eq_zero.mpr hp₁nl
            have hq0 : ((((wsTake (c :: cs')).1).dropWhile notNL).tail).count '\n' = 0 :=
              List.count_eq_zero.mpr hno
            have hcnt : ((wsTake (c :: cs')).1).count '\n' = 1 := by
              conv_lhs => rw [hdec₁]
              rw [List.count_append, hone, h0, hq0]
            omega
          conv_lhs => rw [show c :: cs' = (wsTake (c :: cs')).1 ++ (wsTake (c :: cs')).2
            from hdec.symm]
          conv_lhs => rw [show ((wsTake (c :: cs')).1 : Str)
            = ((wsTake (c :: cs')).1).takeWhile notNL
              ++ '\n' :: (((wsTake (c :: cs')).1).dropWhile notNL).tail from hdec₁]
          rw [List.append_assoc, List.cons_append]
          rw [splitGo_false_walk hp₁nl (acc ++ w) _]
          rw [splitGo_false_cons, if_pos ?csome]
          case csome =>
            rw [nlSkip_isSome hqws hqnl (wsTake (c :: cs')).2]
            simp
          rw [splitGo_true_consume _ hqws _ hhead []]
          rw [stripFilter_cons, stripFilter_cons]
          have hpiece : pyStrip (((((wsTake (c :: cs')).1).takeWhile notNL).reverse
              ++ (acc ++ w)).reverse) = pyStrip acc.reverse := by
            have h1 : ((((wsTake (c :: cs')).1).takeWhile notNL).reverse
                ++ (acc ++ w)).reverse
                = w.reverse ++ (acc.reverse ++ ((wsTake (c :: cs')).1).takeWhile notNL) := by
              simp [List.append_assoc]
            rw [h1, pyStrip_ws_left (fun e he => hw e (List.mem_reverse.mp he)) _,
              pyStrip_ws_right _ hp₁ws]
          rw [hpiece]
          have htail := ih (wsTake (c :: cs')).2 hrlen []
            ((afterLast ((((wsTake (c :: cs')).1).dropWhile notNL).tail)).reverse)
            (fun e he => hqws e (afterLast_subset e (List.mem_reverse.mp he)))
          rw [List.nil_append] at htail
          rw [List.append_nil, htail]
        · rw [if_neg h2]
          have hcle : ((wsTake (c :: cs')).1).count '\n' ≤ 1 := by omega
          conv_lhs => rw [show c :: cs' = (wsTake (c :: cs')).1 ++ (wsTake (c :: cs')).2
            from hdec.symm]
          rw [splitGo_false_ws_run hws hcle hhead (acc ++ w)]
          have htail := ih (wsTake (c :: cs')).2 hrlen
            (((wsTake (c :: cs')).1).reverse ++ acc) w hw
          rw [← List.append_assoc]
          exact htail
      · rw [specSplitAux_cons_nonws acc c cs' hsp]
        have hc : ¬(c = '\n') := fun hcc => hsp (by rw [hcc]; decide)
        rw [splitGo_false_cons, if_neg (by simp [hc])]
        exact ih cs' hlen' (c :: acc) w hw

/-- C2: the chunker equals the specification-side splitter: for every input,
`chunk_document_by_paragraphs` returns exactly the non-empty trimmed pieces
obtained by splitting the text on each whitespace run containing at least two
newline characters, in original order. -/
theorem c2_chunker_refines_spec (text : Str) :
    chunk_document_by_paragraphs text = paragraphsSpec text := by
  have h := splitGo_spec_equiv text.length text le_rfl [] []
    (by intro c hc; cases hc)
  simpa [chunk_document_by_paragraphs, paragraphsSpec, stripFilter] using h
